import Mathlib

/-!
Shallow embedding of `src/custom_transformers.py`: six scikit-learn style
transformers operating on pandas DataFrames.  A DataFrame is modelled as an
ordered association list of named columns; a cell is `Option Cell` with
`none` standing for pandas missing (`NaN`/`NaT`).  Operations that pandas
can abort with an exception (`KeyError` on a missing column or dictionary
key, `ValueError` from `quantile`, `IndexError` from `iloc`) are modelled
with `Except String`.
-/

/-- A non-missing cell value: pandas object cells are strings, numbers or
booleans in this library.  Numbers are modelled as exact rationals. -/
inductive Cell where
  | str : String → Cell
  | num : ℚ → Cell
  | boolean : Bool → Cell
deriving DecidableEq

/-- A column: a list of cells, `none` = missing (`NaN`). -/
abbrev Column := List (Option Cell)

/-- A DataFrame: ordered named columns, positionally row-aligned. -/
abbrev Table := List (String × Column)

instance {e a : Type} [DecidableEq e] [DecidableEq a] :
    DecidableEq (Except e a) := fun x y =>
  match x, y with
  | .error v, .error w =>
    if h : v = w then isTrue (h ▸ rfl)
    else isFalse (fun hc => h (Except.error.inj hc))
  | .error _, .ok _ => isFalse (fun hc => Except.noConfusion hc)
  | .ok _, .error _ => isFalse (fun hc => Except.noConfusion hc)
  | .ok v, .ok w =>
    if h : v = w then isTrue (h ▸ rfl)
    else isFalse (fun hc => h (Except.ok.inj hc))

/-- First-match association lookup (pandas column access / dict lookup). -/
def assocLookup {α : Type} : List (String × α) → String → Option α
  | [], _ => none
  | p :: rest, name => if p.1 = name then some p.2 else assocLookup rest name

/-- `X[name]`: column selection; `none` models the `KeyError` case. -/
def Table.getCol (t : Table) (name : String) : Option Column :=
  assocLookup t name

/-- `X[name] = c`: replace the named column in place, or append it at the
end when no column has that name (pandas column assignment). -/
def Table.setCol : Table → String → Column → Table
  | [], name, c => [(name, c)]
  | p :: rest, name, c =>
    if p.1 = name then (name, c) :: rest else p :: Table.setCol rest name c

/-- `X.drop(columns=names, errors="ignore")`: remove the named columns,
silently skipping absent names, keeping the order of the rest. -/
def Table.dropCols (t : Table) (names : List String) : Table :=
  t.filter (fun p => decide (p.1 ∉ names))

/-- Well-formedness: every column has exactly `n` cells (`n` rows). -/
def Table.Wf (t : Table) (n : Nat) : Prop := ∀ p ∈ t, p.2.length = n

/-- `len(X)`: the row count, read off the first column. -/
def Table.numRows : Table → Nat
  | [] => 0
  | p :: _ => p.2.length

/-- `X[names]` for a list of names: all must be present, else `KeyError`. -/
def Table.getCols (t : Table) : List String → Except String (List Column)
  | [] => .ok []
  | name :: rest =>
    match t.getCol name with
    | none => .error ("KeyError: " ++ name)
    | some c =>
      match t.getCols rest with
      | .error e => .error e
      | .ok cs => .ok (c :: cs)

/-! ## AreaFeatureSelector -/

/-- `AreaFeatureSelector.__init__`. -/
structure AreaFeatureSelector where
  area_columns : List String

/-- Row `r` of `X[area_columns].bfill(axis=1).iloc[:, 0]`: the first
non-missing cell of the row, scanning the columns in list order. -/
def firstNonMissing (cols : List Column) (r : Nat) : Option Cell :=
  (cols.map (fun c => c.getD r none)).findSome? id

/-- `AreaFeatureSelector.fit` returns self, learning nothing. -/
def AreaFeatureSelector.fit (sel : AreaFeatureSelector) (_t : Table) :
    AreaFeatureSelector := sel

/-- `AreaFeatureSelector.transform`: build `MainArea` as the row-wise first
non-missing cell of the area columns, then drop the area columns.  An empty
`area_columns` makes `.iloc[:, 0]` fail (`IndexError`); a listed column
absent from the table is a `KeyError`. -/
def AreaFeatureSelector.transform (sel : AreaFeatureSelector) (t : Table) :
    Except String Table :=
  match t.getCols sel.area_columns with
  | .error e => .error e
  | .ok cols =>
    if cols.isEmpty then
      .error "IndexError: single positional indexer is out-of-bounds"
    else
      .ok ((t.setCol "MainArea"
              ((List.range t.numRows).map (firstNonMissing cols))).dropCols
            sel.area_columns)

/-! ## RareCategoryGrouper -/

/-- `RareCategoryGrouper.__init__`: `frequent_categories_` starts `{}`. -/
structure RareCategoryGrouper where
  columns : List String
  min_frequency : ℚ
  frequent_categories_ : List (String × List Cell)
deriving DecidableEq

/-- The non-missing cells of a column (pandas drops `NaN` before counting). -/
def nonMissingCells (c : Column) : List Cell := c.filterMap id

/-- `X[col].value_counts(normalize=True)[v]`: occurrences of `v` divided by
the number of non-missing cells (`value_counts` drops `NaN` by default, so
the denominator is the non-missing count). -/
def valueFreq (c : Column) (v : Cell) : ℚ :=
  ((nonMissingCells c).count v : ℚ) / ((nonMissingCells c).length : ℚ)

/-- `freq[freq >= min_frequency].index.tolist()`: the distinct non-missing
values whose relative frequency reaches the threshold (ordering of the list
is immaterial: only membership is consumed, by `isin`). -/
def frequentCats (c : Column) (minf : ℚ) : List Cell :=
  ((nonMissingCells c).dedup).filter (fun v => decide (minf ≤ valueFreq c v))

/-- The per-column loop of `RareCategoryGrouper.fit`. -/
def fitFreqCols (minf : ℚ) (t : Table) :
    List String → Except String (List (String × List Cell))
  | [] => .ok []
  | col :: rest =>
    match t.getCol col with
    | none => .error ("KeyError: " ++ col)
    | some c =>
      match fitFreqCols minf t rest with
      | .error e => .error e
      | .ok m => .ok ((col, frequentCats c minf) :: m)

/-- `RareCategoryGrouper.fit`: store the frequent-value set of every
configured column (new entries shadow any previous ones, matching dict
update). -/
def RareCategoryGrouper.fit (g : RareCategoryGrouper) (t : Table) :
    Except String RareCategoryGrouper :=
  match fitFreqCols g.min_frequency t g.columns with
  | .error e => .error e
  | .ok m => .ok { g with frequent_categories_ := m ++ g.frequent_categories_ }

/-- One cell of `X[col].where(X[col].isin(retained), other="Other")`: the
mask is `isin`, which is `False` on a missing cell (the retained list never
contains a missing marker), so a missing cell is also replaced by
`"Other"`. -/
def groupCell (retained : List Cell) (c : Option Cell) : Option Cell :=
  match c with
  | some v => if v ∈ retained then some v else some (Cell.str "Other")
  | none => some (Cell.str "Other")

/-- The per-column loop of `RareCategoryGrouper.transform`: `X[col]` is read
first, then `frequent_categories_[col]`; either lookup can fail with
`KeyError` (the dictionary one does on an unfitted instance). -/
def groupCols (fc : List (String × List Cell)) (t : Table) :
    List String → Except String Table
  | [] => .ok t
  | col :: rest =>
    match t.getCol col with
    | none => .error ("KeyError: " ++ col)
    | some c =>
      match assocLookup fc col with
      | none => .error ("KeyError: " ++ col)
      | some retained =>
        groupCols fc (t.setCol col (c.map (groupCell retained))) rest

/-- `RareCategoryGrouper.transform`. -/
def RareCategoryGrouper.transform (g : RareCategoryGrouper) (t : Table) :
    Except String Table :=
  groupCols g.frequent_categories_ t g.columns

/-! ## BooleanNormalizer -/

/-- `BooleanNormalizer.__init__`. -/
structure BooleanNormalizer where
  columns : List String

/-- `astype(str).str.lower()` of one cell.  Missing cells stringify to
`"nan"`; booleans to `"true"`/`"false"` after lowering; integral numbers to
their decimal digits.  A non-integral number stringifies with a fractional
part (e.g. `"1.5"`), which can never equal one of the six keywords the
normalizer matches against; it is rendered here as `num/den`. -/
def pyStrLower (c : Option Cell) : String :=
  match c with
  | none => "nan"
  | some (Cell.str s) => s.toLower
  | some (Cell.boolean true) => "true"
  | some (Cell.boolean false) => "false"
  | some (Cell.num q) =>
    if q.den = 1 then toString q.num else toString q.num ++ "/" ++ toString q.den

/-- The lambda of `BooleanNormalizer.transform`: after stringification and
lowering only the string members of the truthy/falsy sets can match. -/
def boolNormCell (c : Option Cell) : Option Cell :=
  if pyStrLower c ∈ ["yes", "true", "1"] then some (Cell.num 1)
  else if pyStrLower c ∈ ["no", "false", "0"] then some (Cell.num 0)
  else none

/-- The per-column loop of `BooleanNormalizer.transform`. -/
def boolNormCols (t : Table) : List String → Except String Table
  | [] => .ok t
  | col :: rest =>
    match t.getCol col with
    | none => .error ("KeyError: " ++ col)
    | some c => boolNormCols (t.setCol col (c.map boolNormCell)) rest

/-- `BooleanNormalizer.fit` returns self, learning nothing. -/
def BooleanNormalizer.fit (b : BooleanNormalizer) (_t : Table) :
    BooleanNormalizer := b

/-- `BooleanNormalizer.transform`. -/
def BooleanNormalizer.transform (b : BooleanNormalizer) (t : Table) :
    Except String Table :=
  boolNormCols t b.columns

/-! ## DateFeatureExtractor -/

/-- `DateFeatureExtractor.__init__` (`pfx` is the `Publish`-style naming
prefix of the generated columns). -/
structure DateFeatureExtractor where
  column : String
  pfx : String

/-- Modelled behaviour of `pd.to_datetime(·, errors="coerce")` on one
string, restricted to ISO `YYYY-MM-DD` dates: a parse yields the calendar
year and month, anything else coerces to missing. -/
def parseISODate (s : String) : Option (ℚ × ℚ) :=
  match (s.splitOn "-").map String.toNat? with
  | [some y, some m, some d] =>
    if 1 ≤ m ∧ m ≤ 12 ∧ 1 ≤ d ∧ d ≤ 31 then some ((y : ℚ), (m : ℚ)) else none
  | _ => none

/-- Lenient date parsing of one cell: a missing cell or a non-date value
coerces to missing (`NaT`), never an error. -/
def parseDateCell (c : Option Cell) : Option (ℚ × ℚ) :=
  match c with
  | some (Cell.str s) => parseISODate s
  | _ => none

/-- `DateFeatureExtractor.fit` returns self, learning nothing. -/
def DateFeatureExtractor.fit (e : DateFeatureExtractor) (_t : Table) :
    DateFeatureExtractor := e

/-- `DateFeatureExtractor.transform`: parse the source column, add
`{pfx}Year` and `{pfx}Month` (integer year/month or missing), drop the
source column. -/
def DateFeatureExtractor.transform (e : DateFeatureExtractor) (t : Table) :
    Except String Table :=
  match t.getCol e.column with
  | none => .error ("KeyError: " ++ e.column)
  | some c =>
    let dates := c.map parseDateCell
    let t1 := t.setCol (e.pfx ++ "Year")
                (dates.map (fun d => d.map (fun p => Cell.num p.1)))
    let t2 := t1.setCol (e.pfx ++ "Month")
                (dates.map (fun d => d.map (fun p => Cell.num p.2)))
    .ok (t2.dropCols [e.column])

/-! ## OutlierClipper -/

/-- `OutlierClipper.__init__`: `bounds_` starts `{}`.  No validation of the
quantile fractions happens here. -/
structure OutlierClipper where
  columns : List String
  lower_quantile : ℚ
  upper_quantile : ℚ
  bounds_ : List (String × (Option ℚ × Option ℚ))
deriving DecidableEq

/-- The numeric value of a cell, when it is a number. -/
def cellNum? (v : Cell) : Option ℚ :=
  match v with
  | Cell.num q => some q
  | _ => none

/-- The non-missing numeric values of a column, sorted ascending. -/
def sortedValues (c : Column) : List ℚ :=
  ((nonMissingCells c).filterMap cellNum?).mergeSort (fun a b => decide (a ≤ b))

/-- Linear-interpolation quantile over a sorted non-empty value list, the
pandas default estimator: position `q * (n - 1)`, interpolating between the
two neighbouring order statistics. -/
def quantileSorted (vs : List ℚ) (q : ℚ) : ℚ :=
  let n := vs.length
  let h : ℚ := q * ((n : ℚ) - 1)
  let i : Nat := min (Int.toNat ⌊h⌋) (n - 1)
  let j : Nat := min (i + 1) (n - 1)
  vs.getD i 0 + (h - (i : ℚ)) * (vs.getD j 0 - vs.getD i 0)

/-- `X[col].quantile(q)`: `NaN` (here `none`) on a column with no
non-missing numeric value. -/
def Column.quantile (c : Column) (q : ℚ) : Option ℚ :=
  let vs := sortedValues c
  if vs.isEmpty then none else some (quantileSorted vs q)

/-- The per-column loop of `OutlierClipper.fit`.  `quantile` rejects a
fraction outside `[0, 1]` with a `ValueError`; otherwise the two bounds are
computed and stored.  Nothing checks `lower < upper`. -/
def clipFitCols (lq uq : ℚ) (t : Table) :
    List String → Except String (List (String × (Option ℚ × Option ℚ)))
  | [] => .ok []
  | col :: rest =>
    match t.getCol col with
    | none => .error ("KeyError: " ++ col)
    | some c =>
      if lq < 0 ∨ 1 < lq then
        .error "ValueError: percentiles should all be in the interval [0, 1]"
      else if uq < 0 ∨ 1 < uq then
        .error "ValueError: percentiles should all be in the interval [0, 1]"
      else
        match clipFitCols lq uq t rest with
        | .error e => .error e
        | .ok m => .ok ((col, (c.quantile lq, c.quantile uq)) :: m)

/-- `OutlierClipper.fit`: store `(lower, upper)` per configured column (new
entries shadow any previous ones, matching dict update). -/
def OutlierClipper.fit (oc : OutlierClipper) (t : Table) :
    Except String OutlierClipper :=
  match clipFitCols oc.lower_quantile oc.upper_quantile t oc.columns with
  | .error e => .error e
  | .ok m => .ok { oc with bounds_ := m ++ oc.bounds_ }

/-- `Series.clip(lower, upper)` on one number: the lower bound is applied
first, then the upper; a `NaN` bound (`none`) imposes no clipping on that
side. -/
def clipQ (lo hi : Option ℚ) (x : ℚ) : ℚ :=
  let x1 := match lo with | some l => max x l | none => x
  match hi with | some h => min x1 h | none => x1

/-- `clip` on one cell: numeric cells are clipped, a non-numeric cell of a
(nominally numeric) column is left as is. -/
def clipCell (lo hi : Option ℚ) (v : Cell) : Cell :=
  match v with
  | Cell.num q => Cell.num (clipQ lo hi q)
  | v => v

/-- The per-column loop of `OutlierClipper.transform`: iterate over the
fitted `bounds_` (not over `columns`), clipping each listed column.
Missing cells pass through `clip` unchanged. -/
def clipCols (t : Table) :
    List (String × (Option ℚ × Option ℚ)) → Except String Table
  | [] => .ok t
  | (col, (lo, hi)) :: rest =>
    match t.getCol col with
    | none => .error ("KeyError: " ++ col)
    | some c =>
      clipCols (t.setCol col (c.map (Option.map (clipCell lo hi)))) rest

/-- `OutlierClipper.transform`. -/
def OutlierClipper.transform (oc : OutlierClipper) (t : Table) :
    Except String Table :=
  clipCols t oc.bounds_

/-! ## ColumnDropper -/

/-- `ColumnDropper.__init__`. -/
structure ColumnDropper where
  columns : List String

/-- `ColumnDropper.fit` returns self, learning nothing. -/
def ColumnDropper.fit (d : ColumnDropper) (_t : Table) : ColumnDropper := d

/-- `ColumnDropper.transform`: drop with `errors="ignore"` — total, never
fails, absent names silently skipped. -/
def ColumnDropper.transform (d : ColumnDropper) (t : Table) : Table :=
  t.dropCols d.columns

/-! ## Basic table lemmas -/

/-- The column names of a table, in order. -/
def Table.colNames (t : Table) : List String := t.map Prod.fst

theorem getCol_setCol_self (t : Table) (name : String) (c : Column) :
    (t.setCol name c).getCol name = some c := by
  induction t with
  | nil => simp [Table.setCol, Table.getCol, assocLookup]
  | cons p rest ih =>
    by_cases h : p.1 = name
    · simp [Table.setCol, h, Table.getCol, assocLookup]
    · simpa [Table.setCol, h, Table.getCol, assocLookup] using ih

theorem getCol_setCol_ne (t : Table) {name name' : String} (c : Column)
    (h : name' ≠ name) :
    (t.setCol name c).getCol name' = t.getCol name' := by
  induction t with
  | nil => simp [Table.setCol, Table.getCol, assocLookup, Ne.symm h]
  | cons p rest ih =>
    by_cases hp : p.1 = name
    · subst hp
      simp [Table.setCol, Table.getCol, assocLookup, Ne.symm h]
    · by_cases hq : p.1 = name'
      · simp [Table.setCol, hp, Table.getCol, assocLookup, hq, h]
      · simpa [Table.setCol, hp, Table.getCol, assocLookup, hq] using ih

theorem colNames_setCol (t : Table) (name : String) (c : Column) :
    Table.colNames (t.setCol name c) =
      if name ∈ Table.colNames t then Table.colNames t
      else Table.colNames t ++ [name] := by
  induction t with
  | nil => simp [Table.setCol, Table.colNames]
  | cons p rest ih =>
    by_cases h : p.1 = name
    · simp [Table.setCol, h, Table.colNames]
    · by_cases hm : name ∈ Table.colNames rest <;>
        simp_all [Table.setCol, h, Table.colNames, Ne.symm h]

theorem nodup_colNames_setCol {t : Table} (name : String) (c : Column)
    (h : (Table.colNames t).Nodup) :
    (Table.colNames (t.setCol name c)).Nodup := by
  rw [colNames_setCol]
  by_cases hm : name ∈ Table.colNames t
  · simpa [hm] using h
  · simpa [hm, List.nodup_append] using h

theorem getCol_mem {t : Table} {name : String} {c : Column}
    (h : t.getCol name = some c) : (name, c) ∈ t := by
  induction t with
  | nil => simp [Table.getCol, assocLookup] at h
  | cons p rest ih =>
    by_cases hp : p.1 = name
    · subst hp
      simp [Table.getCol, assocLookup] at h
      rw [List.mem_cons]
      left
      rw [← h]
    · simp [Table.getCol, assocLookup, hp] at h
      exact List.mem_cons_of_mem _ (ih h)

theorem wf_setCol {t : Table} {n : Nat} {c : Column} (name : String)
    (hw : t.Wf n) (hc : c.length = n) : (t.setCol name c).Wf n := by
  induction t with
  | nil => intro p hp; simp [Table.setCol] at hp; simp [hp, hc]
  | cons q rest ih =>
    intro p hp
    by_cases h : q.1 = name
    · simp [Table.setCol, h] at hp
      rcases hp with hp | hp
      · simp [hp, hc]
      · exact hw p (List.mem_cons_of_mem _ hp)
    · simp [Table.setCol, h] at hp
      rcases hp with hp | hp
      · exact hw p (by simp [hp])
      · exact ih (fun q hq => hw q (List.mem_cons_of_mem _ hq)) p hp

theorem wf_dropCols {t : Table} {n : Nat} (names : List String)
    (hw : t.Wf n) : (t.dropCols names).Wf n :=
  fun p hp => hw p (List.mem_of_mem_filter hp)

theorem getCol_dropCols_of_mem {t : Table} {name : String}
    {names : List String} (h : name ∈ names) :
    (t.dropCols names).getCol name = none := by
  induction t with
  | nil => simp [Table.dropCols, Table.getCol, assocLookup]
  | cons p rest ih =>
    by_cases hp : p.1 ∈ names
    · simpa [Table.dropCols, List.filter_cons, hp] using ih
    · have hne : p.1 ≠ name := fun he => hp (he ▸ h)
      simpa [Table.dropCols, List.filter_cons, hp, Table.getCol, assocLookup,
        hne] using ih

theorem getCol_dropCols_of_not_mem {t : Table} {name : String}
    {names : List String} (h : name ∉ names) :
    (t.dropCols names).getCol name = t.getCol name := by
  induction t with
  | nil => simp [Table.dropCols]
  | cons p rest ih =>
    by_cases hp : p.1 ∈ names
    · have hne : p.1 ≠ name := fun he => h (he ▸ hp)
      simpa [Table.dropCols, List.filter_cons, hp, Table.getCol, assocLookup,
        hne] using ih
    · by_cases he : p.1 = name
      · simp [Table.dropCols, List.filter_cons, hp, Table.getCol, assocLookup,
          he, h]
      · simpa [Table.dropCols, List.filter_cons, hp, Table.getCol, assocLookup,
          he] using ih

theorem setCol_getCol_self {t : Table} {name : String} {c : Column}
    (hk : (Table.colNames t).Nodup) (h : t.getCol name = some c) :
    t.setCol name c = t := by
  induction t with
  | nil => simp [Table.getCol, assocLookup] at h
  | cons p rest ih =>
    by_cases hp : p.1 = name
    · subst hp
      simp [Table.getCol, assocLookup] at h
      simp [Table.setCol, ← h]
    · simp [Table.getCol, assocLookup, hp] at h
      simp [Table.colNames] at hk
      simp [Table.setCol, hp, ih hk.2 h]

/-! ## Lemmas about the RareCategoryGrouper transform loop -/

theorem groupCols_ok_getCol_not_mem {fc : List (String × List Cell)}
    {cols : List String} {t t' : Table}
    (h : groupCols fc t cols = .ok t') {name : String} (hn : name ∉ cols) :
    t'.getCol name = t.getCol name := by
  induction cols generalizing t with
  | nil =>
    simp only [groupCols] at h
    cases h
    rfl
  | cons col rest ih =>
    simp only [List.mem_cons, not_or] at hn
    cases hc : t.getCol col with
    | none => simp [groupCols, hc] at h
    | some c =>
      cases hr : assocLookup fc col with
      | none => simp [groupCols, hc, hr] at h
      | some R =>
        simp only [groupCols, hc, hr] at h
        rw [ih h hn.2, getCol_setCol_ne _ _ hn.1]

theorem groupCols_ok_getCol_mem {fc : List (String × List Cell)}
    {cols : List String} {t t' : Table} (hnd : cols.Nodup)
    (h : groupCols fc t cols = .ok t') {col : String} (hc : col ∈ cols) :
    ∃ c R, t.getCol col = some c ∧ assocLookup fc col = some R ∧
      t'.getCol col = some (c.map (groupCell R)) := by
  induction cols generalizing t with
  | nil => simp at hc
  | cons col0 rest ih =>
    cases hg : t.getCol col0 with
    | none => simp [groupCols, hg] at h
    | some c0 =>
      cases hr : assocLookup fc col0 with
      | none => simp [groupCols, hg, hr] at h
      | some R0 =>
        simp only [groupCols, hg, hr] at h
        rcases List.mem_cons.1 hc with rfl | hcr
        · refine ⟨c0, R0, hg, hr, ?_⟩
          rw [groupCols_ok_getCol_not_mem h (List.Nodup.not_mem hnd),
            getCol_setCol_self]
        · have hne : col ≠ col0 := fun he =>
            List.Nodup.not_mem hnd (he ▸ hcr)
          rcases ih (List.Nodup.of_cons hnd) h hcr with ⟨c, R, h1, h2, h3⟩
          rw [getCol_setCol_ne _ _ hne] at h1
          exact ⟨c, R, h1, h2, h3⟩

theorem groupCols_ok_wf {fc : List (String × List Cell)}
    {cols : List String} {t t' : Table} {n : Nat} (hw : t.Wf n)
    (h : groupCols fc t cols = .ok t') : t'.Wf n := by
  induction cols generalizing t with
  | nil =>
    simp only [groupCols] at h
    cases h
    exact hw
  | cons col rest ih =>
    cases hc : t.getCol col with
    | none => simp [groupCols, hc] at h
    | some c =>
      cases hr : assocLookup fc col with
      | none => simp [groupCols, hc, hr] at h
      | some R =>
        simp only [groupCols, hc, hr] at h
        exact ih (wf_setCol col hw (by simpa using hw _ (getCol_mem hc))) h

/-! ## Lemmas about the BooleanNormalizer transform loop -/

theorem boolNormCols_ok_getCol_not_mem {cols : List String} {t t' : Table}
    (h : boolNormCols t cols = .ok t') {name : String} (hn : name ∉ cols) :
    t'.getCol name = t.getCol name := by
  induction cols generalizing t with
  | nil =>
    simp only [boolNormCols] at h
    cases h
    rfl
  | cons col rest ih =>
    simp only [List.mem_cons, not_or] at hn
    cases hc : t.getCol col with
    | none => simp [boolNormCols, hc] at h
    | some c =>
      simp only [boolNormCols, hc] at h
      rw [ih h hn.2, getCol_setCol_ne _ _ hn.1]

theorem boolNormCols_ok_getCol_mem {cols : List String} {t t' : Table}
    (hnd : cols.Nodup) (h : boolNormCols t cols = .ok t') {col : String}
    (hc : col ∈ cols) :
    ∃ c, t.getCol col = some c ∧ t'.getCol col = some (c.map boolNormCell) := by
  induction cols generalizing t with
  | nil => simp at hc
  | cons col0 rest ih =>
    cases hg : t.getCol col0 with
    | none => simp [boolNormCols, hg] at h
    | some c0 =>
      simp only [boolNormCols, hg] at h
      rcases List.mem_cons.1 hc with rfl | hcr
      · refine ⟨c0, hg, ?_⟩
        rw [boolNormCols_ok_getCol_not_mem h (List.Nodup.not_mem hnd),
          getCol_setCol_self]
      · have hne : col ≠ col0 := fun he => List.Nodup.not_mem hnd (he ▸ hcr)
        rcases ih (List.Nodup.of_cons hnd) h hcr with ⟨c, h1, h2⟩
        rw [getCol_setCol_ne _ _ hne] at h1
        exact ⟨c, h1, h2⟩

theorem boolNormCols_ok_wf {cols : List String} {t t' : Table} {n : Nat}
    (hw : t.Wf n) (h : boolNormCols t cols = .ok t') : t'.Wf n := by
  induction cols generalizing t with
  | nil =>
    simp only [boolNormCols] at h
    cases h
    exact hw
  | cons col rest ih =>
    cases hc : t.getCol col with
    | none => simp [boolNormCols, hc] at h
    | some c =>
      simp only [boolNormCols, hc] at h
      exact ih (wf_setCol col hw (by simpa using hw _ (getCol_mem hc))) h

/-! ## Lemmas about the OutlierClipper loops -/

theorem clipCols_ok_getCol_not_mem
    {b : List (String × (Option ℚ × Option ℚ))} {t t' : Table}
    (h : clipCols t b = .ok t') {name : String}
    (hn : name ∉ b.map Prod.fst) : t'.getCol name = t.getCol name := by
  induction b generalizing t with
  | nil =>
    simp only [clipCols] at h
    cases h
    rfl
  | cons p rest ih =>
    obtain ⟨col, lo, hi⟩ := p
    simp only [List.map_cons, List.mem_cons, not_or] at hn
    cases hc : t.getCol col with
    | none => simp [clipCols, hc] at h
    | some c =>
      simp only [clipCols, hc] at h
      rw [ih h hn.2, getCol_setCol_ne _ _ hn.1]

theorem clipCols_ok_getCol_mem {b : List (String × (Option ℚ × Option ℚ))}
    {t t' : Table} (hnd : (b.map Prod.fst).Nodup)
    (h : clipCols t b = .ok t') {col : String} {lo hi : Option ℚ}
    (hc : (col, (lo, hi)) ∈ b) :
    ∃ c, t.getCol col = some c ∧
      t'.getCol col = some (c.map (Option.map (clipCell lo hi))) := by
  induction b generalizing t with
  | nil => simp at hc
  | cons p rest ih =>
    obtain ⟨col0, lo0, hi0⟩ := p
    cases hg : t.getCol col0 with
    | none => simp [clipCols, hg] at h
    | some c0 =>
      simp only [clipCols, hg] at h
      simp only [List.map_cons] at hnd
      rcases List.mem_cons.1 hc with heq | hcr
      · obtain ⟨he1, he2, he3⟩ : col = col0 ∧ lo = lo0 ∧ hi = hi0 := by
          simpa [Prod.ext_iff] using heq
        subst he1; subst he2; subst he3
        refine ⟨c0, hg, ?_⟩
        rw [clipCols_ok_getCol_not_mem h (List.Nodup.not_mem hnd),
          getCol_setCol_self]
      · have hne : col ≠ col0 := fun he => List.Nodup.not_mem hnd
          (he ▸ (List.mem_map_of_mem Prod.fst hcr))
        rcases ih (List.Nodup.of_cons hnd) h hcr with ⟨c, h1, h2⟩
        rw [getCol_setCol_ne _ _ hne] at h1
        exact ⟨c, h1, h2⟩

theorem clipCols_ok_wf {b : List (String × (Option ℚ × Option ℚ))}
    {t t' : Table} {n : Nat} (hw : t.Wf n) (h : clipCols t b = .ok t') :
    t'.Wf n := by
  induction b generalizing t with
  | nil =>
    simp only [clipCols] at h
    cases h
    exact hw
  | cons p rest ih =>
    obtain ⟨col, lo, hi⟩ := p
    cases hc : t.getCol col with
    | none => simp [clipCols, hc] at h
    | some c =>
      simp only [clipCols, hc] at h
      exact ih (wf_setCol col hw (by simpa using hw _ (getCol_mem hc))) h

theorem clipCols_ok_nodup_colNames
    {b : List (String × (Option ℚ × Option ℚ))} {t t' : Table}
    (hk : (Table.colNames t).Nodup) (h : clipCols t b = .ok t') :
    (Table.colNames t').Nodup := by
  induction b generalizing t with
  | nil =>
    simp only [clipCols] at h
    cases h
    exact hk
  | cons p rest ih =>
    obtain ⟨col, lo, hi⟩ := p
    cases hc : t.getCol col with
    | none => simp [clipCols, hc] at h
    | some c =>
      simp only [clipCols, hc] at h
      exact ih (nodup_colNames_setCol col _ hk) h

theorem clipQ_idem (lo hi : Option ℚ) (x : ℚ) :
    clipQ lo hi (clipQ lo hi x) = clipQ lo hi x := by
  cases lo with
  | none =>
    cases hi with
    | none => rfl
    | some h =>
      show min (min x h) h = min x h
      rw [min_assoc, min_self]
  | some l =>
    cases hi with
    | none =>
      show max (max x l) l = max x l
      rw [max_assoc, max_self]
    | some h =>
      show min (max (min (max x l) h) l) h = min (max x l) h
      rcases le_total l h with hlh | hhl
      · rw [max_eq_left (le_min (le_max_right x l) hlh)]
        exact min_eq_left (min_le_right _ _)
      · rw [min_eq_right (le_trans hhl (le_max_right x l)),
          max_eq_right hhl]
        exact min_eq_right hhl

theorem clipCell_idem (lo hi : Option ℚ) (v : Cell) :
    clipCell lo hi (clipCell lo hi v) = clipCell lo hi v := by
  cases v with
  | num q => simp [clipCell, clipQ_idem]
  | str s => rfl
  | boolean b => rfl

theorem clipOpt_idem (lo hi : Option ℚ) (c : Option Cell) :
    Option.map (clipCell lo hi) (Option.map (clipCell lo hi) c) =
      Option.map (clipCell lo hi) c := by
  cases c with
  | none => rfl
  | some v => simp [clipCell_idem]

theorem clipCols_idem {b : List (String × (Option ℚ × Option ℚ))}
    {t t' : Table} (hnd : (b.map Prod.fst).Nodup)
    (hk : (Table.colNames t).Nodup) (h : clipCols t b = .ok t') :
    clipCols t' b = .ok t' := by
  induction b generalizing t with
  | nil =>
    simp only [clipCols] at h
    cases h
    rfl
  | cons p rest ih =>
    obtain ⟨col, lo, hi⟩ := p
    cases hc : t.getCol col with
    | none => simp [clipCols, hc] at h
    | some c =>
      simp only [clipCols, hc] at h
      simp only [List.map_cons] at hnd
      have hget : t'.getCol col =
          some (c.map (Option.map (clipCell lo hi))) := by
        rw [clipCols_ok_getCol_not_mem h (List.Nodup.not_mem hnd),
          getCol_setCol_self]
      have hmm : (c.map (Option.map (clipCell lo hi))).map
          (Option.map (clipCell lo hi)) = c.map (Option.map (clipCell lo hi)) := by
        rw [List.map_map]
        exact List.map_congr_left (fun a _ => clipOpt_idem lo hi a)
      have hk' : (Table.colNames t').Nodup :=
        clipCols_ok_nodup_colNames (nodup_colNames_setCol col _ hk) h
      have hset : t'.setCol col (c.map (Option.map (clipCell lo hi))) = t' :=
        setCol_getCol_self hk' hget
      simp only [clipCols, hget, hmm, hset]
      exact ih (List.Nodup.of_cons hnd) (nodup_colNames_setCol col _ hk) h

/-! ## Quantile lemmas -/

theorem sortedValues_sorted (c : Column) :
    List.Sorted (· ≤ ·) (sortedValues c) := by
  have h := @List.sorted_mergeSort ℚ (fun a b : ℚ => decide (a ≤ b))
    (fun a b c hab hbc => by
      simp only [decide_eq_true_eq] at *
      exact le_trans hab hbc)
    (fun a b => by simpa using le_total a b)
    ((nonMissingCells c).filterMap cellNum?)
  exact List.Pairwise.imp (fun hab => by simpa using hab) h

theorem sorted_getD_mono {vs : List ℚ} (hs : List.Sorted (· ≤ ·) vs)
    {i j : Nat} (hij : i ≤ j) (hj : j < vs.length) :
    vs.getD i 0 ≤ vs.getD j 0 := by
  have hi : i < vs.length := lt_of_le_of_lt hij hj
  rw [List.getD_eq_getElem _ _ hi, List.getD_eq_getElem _ _ hj]
  have := List.Sorted.rel_get_of_le hs
    (a := ⟨i, hi⟩) (b := ⟨j, hj⟩) (Fin.mk_le_mk.2 hij)
  simpa using this

theorem quantileSorted_mono {vs : List ℚ} (hs : List.Sorted (· ≤ ·) vs)
    (hne : vs ≠ []) {q1 q2 : ℚ} (h0 : 0 ≤ q1) (h12 : q1 ≤ q2)
    (h1 : q2 ≤ 1) : quantileSorted vs q1 ≤ quantileSorted vs q2 := by
  have hn : 1 ≤ vs.length := List.length_pos.2 hne
  have hN0 : (0 : ℚ) ≤ (vs.length : ℚ) - 1 := by
    have : (1 : ℚ) ≤ (vs.length : ℚ) := by exact_mod_cast hn
    linarith
  have ha0 : 0 ≤ q1 * ((vs.length : ℚ) - 1) := mul_nonneg h0 hN0
  have hb0 : 0 ≤ q2 * ((vs.length : ℚ) - 1) :=
    mul_nonneg (le_trans h0 h12) hN0
  have hab : q1 * ((vs.length : ℚ) - 1) ≤ q2 * ((vs.length : ℚ) - 1) :=
    mul_le_mul_of_nonneg_right h12 hN0
  have hbN : q2 * ((vs.length : ℚ) - 1) ≤ (vs.length : ℚ) - 1 := by
    calc q2 * ((vs.length : ℚ) - 1) ≤ 1 * ((vs.length : ℚ) - 1) :=
          mul_le_mul_of_nonneg_right h1 hN0
    _ = (vs.length : ℚ) - 1 := one_mul _
  have haN : q1 * ((vs.length : ℚ) - 1) ≤ (vs.length : ℚ) - 1 :=
    le_trans hab hbN
  have hfa0 : 0 ≤ ⌊q1 * ((vs.length : ℚ) - 1)⌋ := Int.floor_nonneg.2 ha0
  have hfb0 : 0 ≤ ⌊q2 * ((vs.length : ℚ) - 1)⌋ := Int.floor_nonneg.2 hb0
  have hcast : ((vs.length : ℚ) - 1) = (((vs.length : ℤ) - 1 : ℤ) : ℚ) := by
    push_cast
    ring
  have hfaN : ⌊q1 * ((vs.length : ℚ) - 1)⌋ ≤ (vs.length : ℤ) - 1 := by
    calc ⌊q1 * ((vs.length : ℚ) - 1)⌋
        ≤ ⌊((((vs.length : ℤ) - 1 : ℤ)) : ℚ)⌋ :=
          Int.floor_mono (by rw [← hcast]; exact haN)
    _ = (vs.length : ℤ) - 1 := Int.floor_intCast _
  have hfbN : ⌊q2 * ((vs.length : ℚ) - 1)⌋ ≤ (vs.length : ℤ) - 1 := by
    calc ⌊q2 * ((vs.length : ℚ) - 1)⌋
        ≤ ⌊((((vs.length : ℤ) - 1 : ℤ)) : ℚ)⌋ :=
          Int.floor_mono (by rw [← hcast]; exact hbN)
    _ = (vs.length : ℤ) - 1 := Int.floor_intCast _
  have h1min : Int.toNat ⌊q1 * ((vs.length : ℚ) - 1)⌋ ≤ vs.length - 1 := by
    omega
  have h2min : Int.toNat ⌊q2 * ((vs.length : ℚ) - 1)⌋ ≤ vs.length - 1 := by
    omega
  simp only [quantileSorted]
  rw [min_eq_left h1min, min_eq_left h2min]
  set i1 := Int.toNat ⌊q1 * ((vs.length : ℚ) - 1)⌋ with hi1def
  set i2 := Int.toNat ⌊q2 * ((vs.length : ℚ) - 1)⌋ with hi2def
  set j1 := min (i1 + 1) (vs.length - 1) with hj1def
  set j2 := min (i2 + 1) (vs.length - 1) with hj2def
  have hi1a : (i1 : ℚ) ≤ q1 * ((vs.length : ℚ) - 1) := by
    have h' := Int.floor_le (q1 * ((vs.length : ℚ) - 1))
    have h'' : ((i1 : ℤ) : ℚ) ≤ q1 * ((vs.length : ℚ) - 1) := by
      rwa [Int.toNat_of_nonneg hfa0]
    exact_mod_cast h''
  have hai1 : q1 * ((vs.length : ℚ) - 1) < (i1 : ℚ) + 1 := by
    have h' := Int.lt_floor_add_one (q1 * ((vs.length : ℚ) - 1))
    have h'' : q1 * ((vs.length : ℚ) - 1) < ((i1 : ℤ) : ℚ) + 1 := by
      rwa [Int.toNat_of_nonneg hfa0]
    exact_mod_cast h''
  have hi2b : (i2 : ℚ) ≤ q2 * ((vs.length : ℚ) - 1) := by
    have h'' : ((i2 : ℤ) : ℚ) ≤ q2 * ((vs.length : ℚ) - 1) := by
      rw [Int.toNat_of_nonneg hfb0]
      exact Int.floor_le _
    exact_mod_cast h''
  have hi12 : i1 ≤ i2 := by
    have h' := Int.floor_mono hab
    omega
  have hj1lt : j1 < vs.length := by omega
  have hj2lt : j2 < vs.length := by omega
  have hi1j1 : i1 ≤ j1 := by omega
  have hi2j2 : i2 ≤ j2 := by omega
  have hAB1 : vs.getD i1 0 ≤ vs.getD j1 0 := sorted_getD_mono hs hi1j1 hj1lt
  have hAB2 : vs.getD i2 0 ≤ vs.getD j2 0 := sorted_getD_mono hs hi2j2 hj2lt
  rcases Nat.lt_or_ge i1 i2 with hlt | hge
  · have hj1i2 : j1 ≤ i2 := by omega
    have hi2lt : i2 < vs.length := by omega
    have hB1A2 : vs.getD j1 0 ≤ vs.getD i2 0 :=
      sorted_getD_mono hs hj1i2 hi2lt
    have hup : vs.getD i1 0 + (q1 * ((vs.length : ℚ) - 1) - (i1 : ℚ)) *
        (vs.getD j1 0 - vs.getD i1 0) ≤ vs.getD j1 0 := by
      nlinarith [hAB1, hai1, hi1a]
    have hdown : vs.getD i2 0 ≤ vs.getD i2 0 +
        (q2 * ((vs.length : ℚ) - 1) - (i2 : ℚ)) *
        (vs.getD j2 0 - vs.getD i2 0) := by
      nlinarith [hAB2, hi2b]
    linarith
  · have heq : i1 = i2 := le_antisymm hi12 hge
    have hjeq : j1 = j2 := by rw [hj1def, hj2def, heq]
    rw [← heq, ← hjeq]
    nlinarith [hAB1, hab]

theorem quantile_le_quantile {c : Column} {q1 q2 : ℚ} (h0 : 0 ≤ q1)
    (h12 : q1 ≤ q2) (h1 : q2 ≤ 1) {lo hi : ℚ}
    (hlo : Column.quantile c q1 = some lo)
    (hhi : Column.quantile c q2 = some hi) : lo ≤ hi := by
  unfold Column.quantile at hlo hhi
  by_cases he : (sortedValues c).isEmpty
  · simp [he] at hlo
  · simp only [he, if_false] at hlo hhi
    cases hlo
    cases hhi
    exact quantileSorted_mono (sortedValues_sorted c)
      (by simpa [List.isEmpty_iff] using he) h0 h12 h1

/-! ## Clip interval lemmas -/

theorem clipQ_mem {lo hi : ℚ} (hlh : lo ≤ hi) (x : ℚ) :
    lo ≤ clipQ (some lo) (some hi) x ∧ clipQ (some lo) (some hi) x ≤ hi := by
  show lo ≤ min (max x lo) hi ∧ min (max x lo) hi ≤ hi
  exact ⟨le_min (le_max_right x lo) hlh, min_le_right _ _⟩

theorem clipQ_of_mem {lo hi x : ℚ} (h1 : lo ≤ x) (h2 : x ≤ hi) :
    clipQ (some lo) (some hi) x = x := by
  show min (max x lo) hi = x
  rw [max_eq_left h1, min_eq_left h2]

/-! ## Fit-loop structure lemmas -/

theorem clipFitCols_ok_keys {lq uq : ℚ} {t : Table} {cols : List String}
    {m : List (String × (Option ℚ × Option ℚ))}
    (h : clipFitCols lq uq t cols = .ok m) : m.map Prod.fst = cols := by
  induction cols generalizing m with
  | nil =>
    simp only [clipFitCols] at h
    cases h
    rfl
  | cons col rest ih =>
    cases hc : t.getCol col with
    | none => simp [clipFitCols, hc] at h
    | some c =>
      by_cases hl : lq < 0 ∨ 1 < lq
      · simp [clipFitCols, hc, hl] at h
      · by_cases hu : uq < 0 ∨ 1 < uq
        · simp [clipFitCols, hc, hl, hu] at h
        · cases hr : clipFitCols lq uq t rest with
          | error e => simp [clipFitCols, hc, hl, hu, hr] at h
          | ok m0 =>
            simp only [clipFitCols, hc, hl, hu, hr, if_false] at h
            cases h
            simp [ih hr]

theorem clipFitCols_ok_mem {lq uq : ℚ} {t : Table} {cols : List String}
    {m : List (String × (Option ℚ × Option ℚ))}
    (h : clipFitCols lq uq t cols = .ok m) {col : String}
    {lo hi : Option ℚ} (hm : (col, (lo, hi)) ∈ m) :
    ∃ c, t.getCol col = some c ∧ lo = c.quantile lq ∧ hi = c.quantile uq := by
  induction cols generalizing m with
  | nil =>
    simp only [clipFitCols] at h
    cases h
    simp at hm
  | cons col0 rest ih =>
    cases hc : t.getCol col0 with
    | none => simp [clipFitCols, hc] at h
    | some c0 =>
      by_cases hl : lq < 0 ∨ 1 < lq
      · simp [clipFitCols, hc, hl] at h
      · by_cases hu : uq < 0 ∨ 1 < uq
        · simp [clipFitCols, hc, hl, hu] at h
        · cases hr : clipFitCols lq uq t rest with
          | error e => simp [clipFitCols, hc, hl, hu, hr] at h
          | ok m0 =>
            simp only [clipFitCols, hc, hl, hu, hr, if_false] at h
            cases h
            rcases List.mem_cons.1 hm with heq | hmr
            · obtain ⟨he1, he2, he3⟩ : col = col0 ∧ lo = c0.quantile lq ∧
                  hi = c0.quantile uq := by simpa [Prod.ext_iff] using heq
              exact ⟨c0, he1 ▸ hc, he2, he3⟩
            · exact ih hr hmr

theorem clipFitCols_ok_of_inrange {lq uq : ℚ} {t : Table}
    {cols : List String} (hl0 : 0 ≤ lq) (hl1 : lq ≤ 1) (hu0 : 0 ≤ uq)
    (hu1 : uq ≤ 1) (hcols : ∀ col ∈ cols, ∃ c, t.getCol col = some c) :
    ∃ m, clipFitCols lq uq t cols = .ok m := by
  induction cols with
  | nil => exact ⟨[], rfl⟩
  | cons col rest ih =>
    rcases hcols col (List.mem_cons_self col rest) with ⟨c, hc⟩
    rcases ih (fun c hc => hcols c (List.mem_cons_of_mem _ hc)) with ⟨m, hm⟩
    refine ⟨(col, (c.quantile lq, c.quantile uq)) :: m, ?_⟩
    have hl : ¬(lq < 0 ∨ 1 < lq) := by push_neg; exact ⟨hl0, hl1⟩
    have hu : ¬(uq < 0 ∨ 1 < uq) := by push_neg; exact ⟨hu0, hu1⟩
    simp [clipFitCols, hc, hl, hu, hm]

theorem fitFreqCols_ok_lookup {minf : ℚ} {t : Table} {cols : List String}
    {m : List (String × List Cell)} (h : fitFreqCols minf t cols = .ok m)
    {col : String} (hc : col ∈ cols) :
    ∃ c, t.getCol col = some c ∧
      assocLookup m col = some (frequentCats c minf) := by
  induction cols generalizing m with
  | nil => simp at hc
  | cons col0 rest ih =>
    cases hg : t.getCol col0 with
    | none => simp [fitFreqCols, hg] at h
    | some c0 =>
      cases hr : fitFreqCols minf t rest with
      | error e => simp [fitFreqCols, hg, hr] at h
      | ok m0 =>
        simp only [fitFreqCols, hg, hr] at h
        cases h
        by_cases he : col = col0
        · subst he
          exact ⟨c0, hg, by simp [assocLookup]⟩
        · rcases ih hr (by
            rcases List.mem_cons.1 hc with h' | h'
            · exact absurd h' he
            · exact h') with ⟨c, h1, h2⟩
          exact ⟨c, h1, by simp [assocLookup, Ne.symm he, h2]⟩

theorem fitFreqCols_ok_of_present {minf : ℚ} {t : Table}
    {cols : List String}
    (hcols : ∀ col ∈ cols, ∃ c, t.getCol col = some c) :
    ∃ m, fitFreqCols minf t cols = .ok m := by
  induction cols with
  | nil => exact ⟨[], rfl⟩
  | cons col rest ih =>
    rcases hcols col (List.mem_cons_self col rest) with ⟨c, hc⟩
    rcases ih (fun c hc => hcols c (List.mem_cons_of_mem _ hc)) with ⟨m, hm⟩
    exact ⟨(col, frequentCats c minf) :: m, by simp [fitFreqCols, hc, hm]⟩

/-! ## Frequency characterization -/

theorem mem_frequentCats {c : Column} {minf : ℚ} {v : Cell} :
    v ∈ frequentCats c minf ↔
      v ∈ nonMissingCells c ∧ minf ≤ valueFreq c v := by
  simp [frequentCats, List.mem_filter, List.mem_dedup]

/-! ## getCols lemmas -/

theorem getCols_ok_forall₂ {t : Table} {names : List String}
    {cols : List Column} (h : t.getCols names = .ok cols) :
    List.Forall₂ (fun name c => t.getCol name = some c) names cols := by
  induction names generalizing cols with
  | nil =>
    simp only [Table.getCols] at h
    cases h
    exact List.Forall₂.nil
  | cons name rest ih =>
    cases hc : t.getCol name with
    | none => simp [Table.getCols, hc] at h
    | some c =>
      cases hr : t.getCols rest with
      | error e => simp [Table.getCols, hc, hr] at h
      | ok cs =>
        simp only [Table.getCols, hc, hr] at h
        cases h
        exact List.Forall₂.cons hc (ih hr)

theorem numRows_eq_of_wf {t : Table} {n : Nat} (hw : t.Wf n)
    (hne : t ≠ []) : t.numRows = n := by
  cases t with
  | nil => exact absurd rfl hne
  | cons p rest => exact hw p (List.mem_cons_self p rest)

/-! ## Small general helpers -/

theorem getD_map_of_lt {α β : Type} (f : α → β) (l : List α) (dA : α)
    (dB : β) {i : Nat} (h : i < l.length) :
    (l.map f).getD i dB = f (l.getD i dA) := by
  rw [List.getD_eq_getElem _ _ (by simpa using h),
    List.getD_eq_getElem _ _ h, List.getElem_map]

theorem findSome?_id_eq_none_iff {l : List (Option Cell)} :
    l.findSome? id = none ↔ ∀ x ∈ l, x = none := by
  induction l with
  | nil => simp
  | cons a rest ih =>
    cases a with
    | none => simp [List.findSome?, ih]
    | some v => simp [List.findSome?]

theorem findSome?_id_eq_some_iff {l : List (Option Cell)} {v : Cell} :
    l.findSome? id = some v ↔
      ∃ k, k < l.length ∧ l.getD k none = some v ∧
        ∀ j, j < k → l.getD j none = none := by
  induction l with
  | nil => simp
  | cons a rest ih =>
    cases a with
    | some w =>
      simp only [List.findSome?, id]
      constructor
      · intro h
        cases h
        exact ⟨0, by simp, by simp, by omega⟩
      · rintro ⟨k, hk, hv, hj⟩
        cases k with
        | zero => simpa using hv
        | succ k' =>
          have := hj 0 (Nat.succ_pos k')
          simp at this
    | none =>
      simp only [List.findSome?, id]
      rw [ih]
      constructor
      · rintro ⟨k, hk, hv, hj⟩
        refine ⟨k + 1, by simpa using Nat.succ_lt_succ hk, by simpa using hv,
          ?_⟩
        intro j hjk
        cases j with
        | zero => simp
        | succ j' => simpa using hj j' (by omega)
      · rintro ⟨k, hk, hv, hj⟩
        cases k with
        | zero => simp at hv
        | succ k' =>
          refine ⟨k', by simpa using Nat.lt_of_succ_lt_succ hk,
            by simpa using hv, ?_⟩
          intro j hjk
          have := hj (j + 1) (by omega)
          simpa using this

/-! ## Claim theorems -/

/-- C1 counterexample: the claim says a missing cell passes through
`RareCategoryGrouper.transform` as missing and is never rewritten to
`"Other"`.  On a grouper fitted on `City = ["A", "A"]` with
`min_frequency = 1/2` (retained set `{A}`), transforming a table whose
single `City` cell is missing rewrites that missing cell to the literal
`"Other"`: `isin` is false on `NaN` because `value_counts` never counts
`NaN`, so `where(..., other="Other")` replaces it. -/
theorem rareCategoryGrouper_missing_rewritten_cex :
    ((RareCategoryGrouper.mk ["City"] (1/2) []).fit
        [("City", [some (Cell.str "A"), some (Cell.str "A")])]).bind
      (fun g => g.transform [("City", [none])]) =
      .ok [("City", [some (Cell.str "Other")])] := by
  with_unfolding_all rfl

/-- C1 amended: for every freshly-constructed `RareCategoryGrouper` that
was fitted and then applied, each configured column of the output is the
input column rewritten cell by cell: a retained value passes through
unchanged, a non-missing value outside the retained set becomes `"Other"`,
and a missing cell also becomes `"Other"` (missing does not survive,
because missing is excluded from frequency counting and is never
retained). -/
theorem rareCategoryGrouper_transform_cellwise
    {g g' : RareCategoryGrouper} {tFit t t' : Table}
    (hnd : g.columns.Nodup) (hfc0 : g.frequent_categories_ = [])
    (hfit : g.fit tFit = .ok g') (htr : g'.transform t = .ok t')
    {col : String} (hcol : col ∈ g.columns) :
    ∃ cs R cs', t.getCol col = some cs ∧
      assocLookup g'.frequent_categories_ col = some R ∧
      t'.getCol col = some cs' ∧ cs'.length = cs.length ∧
      (∀ i, i < cs.length → cs.getD i none = none →
        cs'.getD i none = some (Cell.str "Other")) ∧
      (∀ i v, i < cs.length → cs.getD i none = some v → v ∈ R →
        cs'.getD i none = some v) ∧
      (∀ i v, i < cs.length → cs.getD i none = some v → v ∉ R →
        cs'.getD i none = some (Cell.str "Other")) := by
  cases hm : fitFreqCols g.min_frequency tFit g.columns with
  | error e => simp [RareCategoryGrouper.fit, hm] at hfit
  | ok m =>
    simp only [RareCategoryGrouper.fit, hm] at hfit
    cases hfit
    simp only [RareCategoryGrouper.transform, hfc0, List.append_nil] at htr
    simp only [hfc0, List.append_nil]
    rcases groupCols_ok_getCol_mem hnd htr hcol with ⟨cs, R, hcs, hR, hout⟩
    refine ⟨cs, R, cs.map (groupCell R), hcs, hR, hout, by simp, ?_, ?_, ?_⟩
    · intro i hi hnone
      rw [getD_map_of_lt (groupCell R) cs none none hi, hnone]
      rfl
    · intro i v hi hv hvR
      rw [getD_map_of_lt (groupCell R) cs none none hi, hv]
      simp [groupCell, hvR]
    · intro i v hi hv hvR
      rw [getD_map_of_lt (groupCell R) cs none none hi, hv]
      simp [groupCell, hvR]

/-- C1 witness: the amended cellwise description, instantiated on a grouper
fitted on `City = ["A", "A", "B"]` with threshold `1/2` (retained `{A}`)
and applied to a column holding a retained value, a rare value and a
missing cell. -/
theorem rareCategoryGrouper_transform_cellwise_witness :
    ∃ cs R cs',
      Table.getCol [("City", [some (Cell.str "A"), some (Cell.str "B"),
        none])] "City" = some cs ∧
      assocLookup (RareCategoryGrouper.mk ["City"] (1/2)
        [("City", [Cell.str "A"])]).frequent_categories_ "City" = some R ∧
      Table.getCol [("City", [some (Cell.str "A"),
        some (Cell.str "Other"), some (Cell.str "Other")])] "City" =
        some cs' ∧
      cs'.length = cs.length ∧
      (∀ i, i < cs.length → cs.getD i none = none →
        cs'.getD i none = some (Cell.str "Other")) ∧
      (∀ i v, i < cs.length → cs.getD i none = some v → v ∈ R →
        cs'.getD i none = some v) ∧
      (∀ i v, i < cs.length → cs.getD i none = some v → v ∉ R →
        cs'.getD i none = some (Cell.str "Other")) :=
  @rareCategoryGrouper_transform_cellwise
    (RareCategoryGrouper.mk ["City"] (1/2) [])
    (RareCategoryGrouper.mk ["City"] (1/2) [("City", [Cell.str "A"])])
    [("City", [some (Cell.str "A"), some (Cell.str "A"),
      some (Cell.str "B")])]
    [("City", [some (Cell.str "A"), some (Cell.str "B"), none])]
    [("City", [some (Cell.str "A"), some (Cell.str "Other"),
      some (Cell.str "Other")])]
    (by decide) rfl (by with_unfolding_all rfl) (by with_unfolding_all rfl)
    "City" (by decide)

/-- C2 counterexample: the claim says `transform` before `fit` raises
`NotFittedError` and neither returns a table nor fails differently.  An
unfitted `OutlierClipper` (its `bounds_` dict is the empty `{}` set by
`__init__`) iterates over zero fitted bounds and returns the table
unchanged — no error of any kind. -/
theorem transform_before_fit_cex :
    (OutlierClipper.mk ["x"] (1/100) (99/100) []).transform
      [("x", [some (Cell.num 5)])] = .ok [("x", [some (Cell.num 5)])] := by
  with_unfolding_all rfl

/-- C2 amended: no `NotFittedError` exists.  `transform` before `fit`
behaves as follows: an unfitted `OutlierClipper` silently returns its
input unchanged (its `bounds_` dict is empty, so the clipping loop runs
zero times), while an unfitted `RareCategoryGrouper` with a non-empty
column list fails with a `KeyError` (either the table access or the lookup
of the first configured column in the empty `frequent_categories_`
dict). -/
theorem transform_before_fit_behavior :
    (∀ (cols : List String) (lq uq : ℚ) (t : Table),
      (OutlierClipper.mk cols lq uq []).transform t = .ok t) ∧
    (∀ (col : String) (rest : List String) (minf : ℚ) (t : Table),
      (RareCategoryGrouper.mk (col :: rest) minf []).transform t =
        .error ("KeyError: " ++ col)) := by
  constructor
  · intro cols lq uq t
    rfl
  · intro col rest minf t
    cases hc : t.getCol col with
    | none => simp [RareCategoryGrouper.transform, groupCols, hc]
    | some c => simp [RareCategoryGrouper.transform, groupCols, hc,
        assocLookup]

/-- Shared characterization of the fitted retained sets: used by the
threshold-boundary and denominator claims below. -/
theorem fit_retained_iff_aux
    {g g' : RareCategoryGrouper} {t : Table}
    (hfc0 : g.frequent_categories_ = []) (hfit : g.fit t = .ok g')
    {col : String} (hcol : col ∈ g.columns) :
    ∃ cs R, t.getCol col = some cs ∧
      assocLookup g'.frequent_categories_ col = some R ∧
      ∀ v : Cell, v ∈ R ↔
        v ∈ nonMissingCells cs ∧ g.min_frequency ≤ valueFreq cs v := by
  cases hm : fitFreqCols g.min_frequency t g.columns with
  | error e => simp [RareCategoryGrouper.fit, hm] at hfit
  | ok m =>
    simp only [RareCategoryGrouper.fit, hm] at hfit
    cases hfit
    simp only [hfc0, List.append_nil]
    rcases fitFreqCols_ok_lookup hm hcol with ⟨cs, hcs, hl⟩
    exact ⟨cs, frequentCats cs g.min_frequency, hcs, hl,
      fun v => mem_frequentCats⟩

/-- C6: for every freshly-constructed `RareCategoryGrouper` that was
fitted, each configured column's stored retained set contains exactly the
distinct non-missing values whose relative frequency is at least
`min_frequency` — the comparison is `≥`, so a category exactly at the
threshold is retained. -/
theorem rareCategoryGrouper_fit_retained_iff
    {g g' : RareCategoryGrouper} {t : Table}
    (hfc0 : g.frequent_categories_ = []) (hfit : g.fit t = .ok g')
    {col : String} (hcol : col ∈ g.columns) :
    ∃ cs R, t.getCol col = some cs ∧
      assocLookup g'.frequent_categories_ col = some R ∧
      ∀ v : Cell, v ∈ R ↔
        v ∈ nonMissingCells cs ∧ g.min_frequency ≤ valueFreq cs v :=
  fit_retained_iff_aux hfc0 hfit hcol

/-- C6 witness: the spec's own example, with the threshold moved to the
boundary: `City = [A, A, A, B, B, C]` and `min_frequency = 1/3`; `B` sits
exactly at frequency `2/6 = 1/3` and is retained. -/
theorem rareCategoryGrouper_fit_retained_iff_witness :
    ∃ cs R,
      Table.getCol [("City", [some (Cell.str "A"), some (Cell.str "A"),
        some (Cell.str "A"), some (Cell.str "B"), some (Cell.str "B"),
        some (Cell.str "C")])] "City" = some cs ∧
      assocLookup (RareCategoryGrouper.mk ["City"] (1/3)
        [("City", [Cell.str "A", Cell.str "B"])]).frequent_categories_
        "City" = some R ∧
      ∀ v : Cell, v ∈ R ↔
        v ∈ nonMissingCells cs ∧ (1/3 : ℚ) ≤ valueFreq cs v :=
  rareCategoryGrouper_fit_retained_iff
    (g := RareCategoryGrouper.mk ["City"] (1/3) [])
    rfl (by with_unfolding_all rfl) (by decide)

/-- C10: `RareCategoryGrouper.fit` computes relative frequency over the
non-missing cells only — a value is retained iff
`min_frequency * (non-missing count) ≤ (occurrences of the value)` — and
consequently, on the column `[A, missing, missing, missing]` with
`min_frequency = 3/10`, the value `A` is retained even though its
frequency over all rows, `1/4`, is below the threshold. -/
theorem rareCategoryGrouper_freq_denominator :
    (∀ (g g' : RareCategoryGrouper) (t : Table),
      g.frequent_categories_ = [] → g.fit t = .ok g' →
      ∀ col ∈ g.columns, ∃ cs R, t.getCol col = some cs ∧
        assocLookup g'.frequent_categories_ col = some R ∧
        ∀ v : Cell, v ∈ R ↔ v ∈ nonMissingCells cs ∧
          g.min_frequency * ((nonMissingCells cs).length : ℚ) ≤
            ((nonMissingCells cs).count v : ℚ)) ∧
    ((RareCategoryGrouper.mk ["c"] (3/10) []).fit
        [("c", [some (Cell.str "A"), none, none, none])]).bind
      (fun g => .ok g.frequent_categories_) = .ok [("c", [Cell.str "A"])] ∧
    (([some (Cell.str "A"), none, none, none] : Column).count
        (some (Cell.str "A")) : ℚ) /
      (([some (Cell.str "A"), none, none, none] : Column).length : ℚ) <
      3/10 := by
  refine ⟨?_, by with_unfolding_all rfl, by norm_num [List.count_cons]⟩
  intro g g' t hfc0 hfit col hcol
  rcases fit_retained_iff_aux hfc0 hfit hcol with
    ⟨cs, R, hcs, hl, hiff⟩
  refine ⟨cs, R, hcs, hl, fun v => ?_⟩
  rw [hiff v]
  constructor
  · rintro ⟨hv, hfreq⟩
    refine ⟨hv, ?_⟩
    have hlen : 0 < ((nonMissingCells cs).length : ℚ) := by
      exact_mod_cast List.length_pos.2 (List.ne_nil_of_mem hv)
    rw [valueFreq, le_div_iff₀ hlen] at hfreq
    exact hfreq
  · rintro ⟨hv, hfreq⟩
    refine ⟨hv, ?_⟩
    have hlen : 0 < ((nonMissingCells cs).length : ℚ) := by
      exact_mod_cast List.length_pos.2 (List.ne_nil_of_mem hv)
    rw [valueFreq, le_div_iff₀ hlen]
    exact hfreq

/-- C10 witness: the denominator characterization instantiated on the
column `[A, missing, missing, missing]` with threshold `3/10`: the
non-missing count is `1`, so `A` (1 occurrence) is retained. -/
theorem rareCategoryGrouper_freq_denominator_witness :
    ∃ cs R,
      Table.getCol [("c", [some (Cell.str "A"), none, none, none])] "c" =
        some cs ∧
      assocLookup (RareCategoryGrouper.mk ["c"] (3/10)
        [("c", [Cell.str "A"])]).frequent_categories_ "c" = some R ∧
      ∀ v : Cell, v ∈ R ↔ v ∈ nonMissingCells cs ∧
        (3/10 : ℚ) * ((nonMissingCells cs).length : ℚ) ≤
          ((nonMissingCells cs).count v : ℚ) :=
  rareCategoryGrouper_freq_denominator.1
    (RareCategoryGrouper.mk ["c"] (3/10) [])
    (RareCategoryGrouper.mk ["c"] (3/10) [("c", [Cell.str "A"])])
    [("c", [some (Cell.str "A"), none, none, none])]
    rfl (by with_unfolding_all rfl) "c" (by decide)

/-- The three possible outputs of one normalized cell. -/
theorem boolNormCell_range (c : Option Cell) :
    boolNormCell c = some (Cell.num 1) ∨ boolNormCell c = some (Cell.num 0) ∨
      boolNormCell c = none := by
  unfold boolNormCell
  split_ifs <;> simp

theorem boolNormCell_of_truthy {c : Option Cell}
    (h : pyStrLower c ∈ ["yes", "true", "1"]) :
    boolNormCell c = some (Cell.num 1) := by
  unfold boolNormCell
  rw [if_pos h]

theorem boolNormCell_of_falsy {c : Option Cell}
    (h : pyStrLower c ∈ ["no", "false", "0"]) :
    boolNormCell c = some (Cell.num 0) := by
  have hnt : pyStrLower c ∉ ["yes", "true", "1"] := by
    intro hy
    simp only [List.mem_cons, List.not_mem_nil, or_false] at h hy
    rcases h with h | h | h <;> rcases hy with hy | hy | hy <;>
      rw [h] at hy <;> exact absurd hy (by decide)
  unfold boolNormCell
  rw [if_neg hnt, if_pos h]

theorem boolNormCell_of_other {c : Option Cell}
    (h1 : pyStrLower c ∉ ["yes", "true", "1"])
    (h2 : pyStrLower c ∉ ["no", "false", "0"]) : boolNormCell c = none := by
  unfold boolNormCell
  rw [if_neg h1, if_neg h2]

/-- C5: for every table and configured column (present in the table, so
that `transform` succeeds), `BooleanNormalizer.transform` yields only
values in `{1, 0, missing}`: a cell whose lower-cased string form is in
`{"yes","true","1"}` maps to `1`, one in `{"no","false","0"}` maps to `0`,
and everything else — already-missing cells included — maps to missing;
cells with equal lower-cased string forms (case variants) map
identically. -/
theorem booleanNormalizer_transform_spec
    {b : BooleanNormalizer} {t t' : Table} (hnd : b.columns.Nodup)
    (htr : b.transform t = .ok t') {col : String} (hcol : col ∈ b.columns) :
    ∃ cs cs', t.getCol col = some cs ∧ t'.getCol col = some cs' ∧
      cs'.length = cs.length ∧
      (∀ i, i < cs.length →
        cs'.getD i none = some (Cell.num 1) ∨
        cs'.getD i none = some (Cell.num 0) ∨ cs'.getD i none = none) ∧
      (∀ i, i < cs.length → pyStrLower (cs.getD i none) ∈ ["yes", "true", "1"] →
        cs'.getD i none = some (Cell.num 1)) ∧
      (∀ i, i < cs.length → pyStrLower (cs.getD i none) ∈ ["no", "false", "0"] →
        cs'.getD i none = some (Cell.num 0)) ∧
      (∀ i, i < cs.length → pyStrLower (cs.getD i none) ∉ ["yes", "true", "1"] →
        pyStrLower (cs.getD i none) ∉ ["no", "false", "0"] →
        cs'.getD i none = none) ∧
      (∀ i, i < cs.length → cs.getD i none = none → cs'.getD i none = none) ∧
      (∀ i j, i < cs.length → j < cs.length →
        pyStrLower (cs.getD i none) = pyStrLower (cs.getD j none) →
        cs'.getD i none = cs'.getD j none) := by
  simp only [BooleanNormalizer.transform] at htr
  rcases boolNormCols_ok_getCol_mem hnd htr hcol with ⟨cs, hcs, hout⟩
  refine ⟨cs, cs.map boolNormCell, hcs, hout, by simp, ?_, ?_, ?_, ?_, ?_, ?_⟩
  · intro i hi
    rw [getD_map_of_lt boolNormCell cs none none hi]
    exact boolNormCell_range _
  · intro i hi h
    rw [getD_map_of_lt boolNormCell cs none none hi]
    exact boolNormCell_of_truthy h
  · intro i hi h
    rw [getD_map_of_lt boolNormCell cs none none hi]
    exact boolNormCell_of_falsy h
  · intro i hi h1 h2
    rw [getD_map_of_lt boolNormCell cs none none hi]
    exact boolNormCell_of_other h1 h2
  · intro i hi h
    rw [getD_map_of_lt boolNormCell cs none none hi, h]
    decide
  · intro i j hi hj h
    rw [getD_map_of_lt boolNormCell cs none none hi,
      getD_map_of_lt boolNormCell cs none none hj]
    unfold boolNormCell
    rw [h]

/-- C5 witness: the description instantiated on a column holding the case
variants `"YES"`, `"Yes"`, `"yes"`, the falsy `"no"`, the unrecognized
`"maybe"` and a missing cell. -/
theorem booleanNormalizer_transform_spec_witness :
    ∃ cs cs',
      Table.getCol [("f", [some (Cell.str "YES"), some (Cell.str "Yes"),
        some (Cell.str "yes"), some (Cell.str "no"),
        some (Cell.str "maybe"), none])] "f" = some cs ∧
      Table.getCol [("f", [some (Cell.num 1), some (Cell.num 1),
        some (Cell.num 1), some (Cell.num 0), none, none])] "f" =
        some cs' ∧
      cs'.length = cs.length ∧
      (∀ i, i < cs.length →
        cs'.getD i none = some (Cell.num 1) ∨
        cs'.getD i none = some (Cell.num 0) ∨ cs'.getD i none = none) ∧
      (∀ i, i < cs.length → pyStrLower (cs.getD i none) ∈ ["yes", "true", "1"] →
        cs'.getD i none = some (Cell.num 1)) ∧
      (∀ i, i < cs.length → pyStrLower (cs.getD i none) ∈ ["no", "false", "0"] →
        cs'.getD i none = some (Cell.num 0)) ∧
      (∀ i, i < cs.length → pyStrLower (cs.getD i none) ∉ ["yes", "true", "1"] →
        pyStrLower (cs.getD i none) ∉ ["no", "false", "0"] →
        cs'.getD i none = none) ∧
      (∀ i, i < cs.length → cs.getD i none = none → cs'.getD i none = none) ∧
      (∀ i j, i < cs.length → j < cs.length →
        pyStrLower (cs.getD i none) = pyStrLower (cs.getD j none) →
        cs'.getD i none = cs'.getD j none) :=
  booleanNormalizer_transform_spec (b := BooleanNormalizer.mk ["f"])
    (by decide) (by with_unfolding_all rfl) (by decide)

/-- C7 counterexample: the claim says violating
`0 ≤ lower_quantile < upper_quantile ≤ 1` raises a configuration error at
construction or fit.  With `lower_quantile = 9/10 > upper_quantile = 1/10`
(both inside `[0, 1]`), construction stores the fractions unchecked and
`fit` succeeds silently, storing inverted bounds. -/
theorem outlierClipper_no_validation_cex :
    (OutlierClipper.mk ["x"] (9/10) (1/10) []).fit
        [("x", [some (Cell.num 1), some (Cell.num 2)])] =
      .ok (OutlierClipper.mk ["x"] (9/10) (1/10)
        [("x", (some (19/10), some (11/10)))]) := by
  with_unfolding_all rfl

/-- C7 amended: no ordering validation exists.  `fit` succeeds for any
quantile fractions inside `[0, 1]` — including `lower = upper` and
`lower > upper` — whenever the configured columns are present; only a
fraction outside `[0, 1]` makes `fit` fail, and then with the quantile
routine's `ValueError`, not a configuration error at construction
(construction itself never fails). -/
theorem outlierClipper_fit_validation_behavior :
    (∀ (cols : List String) (lq uq : ℚ) (t : Table),
      0 ≤ lq → lq ≤ 1 → 0 ≤ uq → uq ≤ 1 →
      (∀ col ∈ cols, ∃ c, t.getCol col = some c) →
      ∃ oc', (OutlierClipper.mk cols lq uq []).fit t = .ok oc') ∧
    (∀ (col : String) (rest : List String) (lq uq : ℚ) (t : Table)
      (c : Column), t.getCol col = some c → (lq < 0 ∨ 1 < lq) →
      (OutlierClipper.mk (col :: rest) lq uq []).fit t =
        .error "ValueError: percentiles should all be in the interval [0, 1]") := by
  constructor
  · intro cols lq uq t hl0 hl1 hu0 hu1 hcols
    rcases clipFitCols_ok_of_inrange hl0 hl1 hu0 hu1 hcols with ⟨m, hm⟩
    exact ⟨OutlierClipper.mk cols lq uq (m ++ []),
      by simp [OutlierClipper.fit, hm]⟩
  · intro col rest lq uq t c hc hlq
    simp [OutlierClipper.fit, clipFitCols, hc, hlq]

/-- C7 witness: `fit` with `lower = upper = 1/2` succeeds (no ordering
check), while `lower = 3/2` outside `[0, 1]` fails with `ValueError`. -/
theorem outlierClipper_fit_validation_behavior_witness :
    (∃ oc', (OutlierClipper.mk ["x"] (1/2) (1/2) []).fit
      [("x", [some (Cell.num 1), some (Cell.num 2)])] = .ok oc') ∧
    (OutlierClipper.mk ["x"] (3/2) (1/2) []).fit
      [("x", [some (Cell.num 1), some (Cell.num 2)])] =
      .error "ValueError: percentiles should all be in the interval [0, 1]" :=
  ⟨outlierClipper_fit_validation_behavior.1 ["x"] (1/2) (1/2)
      [("x", [some (Cell.num 1), some (Cell.num 2)])]
      (by norm_num) (by norm_num) (by norm_num) (by norm_num)
      (by
        intro col hcol
        simp only [List.mem_singleton] at hcol
        subst hcol
        exact ⟨[some (Cell.num 1), some (Cell.num 2)],
          by with_unfolding_all rfl⟩),
    outlierClipper_fit_validation_behavior.2 "x" [] (3/2) (1/2)
      [("x", [some (Cell.num 1), some (Cell.num 2)])]
      [some (Cell.num 1), some (Cell.num 2)] rfl (by norm_num)⟩

/-- The two generated date-feature column names never coincide. -/
theorem append_year_ne_month (p : String) : p ++ "Year" ≠ p ++ "Month" := by
  intro h
  have h2 : (p ++ "Year").data = (p ++ "Month").data := congrArg String.data h
  rw [String.data_append, String.data_append] at h2
  have h3 := List.append_cancel_left h2
  simp at h3

/-- C8: for every table whose source column is present (so that
`transform` succeeds) and whose generated names do not collide with the
source name, the output holds `{pfx}Year` and `{pfx}Month` columns of the
input's length in which every parsed date cell yields its integer year and
month and every unparseable or missing cell yields missing in both; the
source column is absent from the output. -/
theorem dateFeatureExtractor_transform_spec
    {e : DateFeatureExtractor} {t t' : Table} {cs : Column}
    (hcs : t.getCol e.column = some cs)
    (hy : e.pfx ++ "Year" ≠ e.column) (hm : e.pfx ++ "Month" ≠ e.column)
    (htr : e.transform t = .ok t') :
    t'.getCol e.column = none ∧
    ∃ ys ms, t'.getCol (e.pfx ++ "Year") = some ys ∧
      t'.getCol (e.pfx ++ "Month") = some ms ∧
      ys.length = cs.length ∧ ms.length = cs.length ∧
      (∀ i y m, i < cs.length →
        parseDateCell (cs.getD i none) = some (y, m) →
        ys.getD i none = some (Cell.num y) ∧
        ms.getD i none = some (Cell.num m)) ∧
      (∀ i, i < cs.length → parseDateCell (cs.getD i none) = none →
        ys.getD i none = none ∧ ms.getD i none = none) := by
  simp only [DateFeatureExtractor.transform, hcs] at htr
  cases htr
  refine ⟨getCol_dropCols_of_mem (by simp), ?_⟩
  refine ⟨(cs.map parseDateCell).map (fun d => d.map (fun p => Cell.num p.1)),
    (cs.map parseDateCell).map (fun d => d.map (fun p => Cell.num p.2)),
    ?_, ?_, by simp, by simp, ?_, ?_⟩
  · rw [getCol_dropCols_of_not_mem (by simpa using hy),
      getCol_setCol_ne _ _ (append_year_ne_month e.pfx),
      getCol_setCol_self]
  · rw [getCol_dropCols_of_not_mem (by simpa using hm),
      getCol_setCol_self]
  · intro i y m hi hp
    have hlen : i < (cs.map parseDateCell).length := by simpa using hi
    rw [getD_map_of_lt _ _ none none hlen,
      getD_map_of_lt parseDateCell cs none none hi, hp,
      getD_map_of_lt _ _ none none hlen,
      getD_map_of_lt parseDateCell cs none none hi, hp]
    exact ⟨rfl, rfl⟩
  · intro i hi hp
    have hlen : i < (cs.map parseDateCell).length := by simpa using hi
    rw [getD_map_of_lt _ _ none none hlen,
      getD_map_of_lt parseDateCell cs none none hi, hp,
      getD_map_of_lt _ _ none none hlen,
      getD_map_of_lt parseDateCell cs none none hi, hp]
    exact ⟨rfl, rfl⟩

/-- C8 witness: the description instantiated on a source column holding a
valid ISO date, an unparseable string and a missing cell; the output table
holds only the two generated columns. -/
theorem dateFeatureExtractor_transform_spec_witness :
    Table.getCol [("PublishYear", [some (Cell.num 2021), none, none]),
      ("PublishMonth", [some (Cell.num 3), none, none])] "d" = none ∧
    ∃ ys ms,
      Table.getCol [("PublishYear", [some (Cell.num 2021), none, none]),
        ("PublishMonth", [some (Cell.num 3), none, none])]
        ("Publish" ++ "Year") = some ys ∧
      Table.getCol [("PublishYear", [some (Cell.num 2021), none, none]),
        ("PublishMonth", [some (Cell.num 3), none, none])]
        ("Publish" ++ "Month") = some ms ∧
      ys.length = 3 ∧ ms.length = 3 ∧
      (∀ i y m, i < 3 →
        parseDateCell (List.getD [some (Cell.str "2021-03-15"),
          some (Cell.str "not-a-date"), none] i none) = some (y, m) →
        ys.getD i none = some (Cell.num y) ∧
        ms.getD i none = some (Cell.num m)) ∧
      (∀ i, i < 3 →
        parseDateCell (List.getD [some (Cell.str "2021-03-15"),
          some (Cell.str "not-a-date"), none] i none) = none →
        ys.getD i none = none ∧ ms.getD i none = none) := by
  have h := @dateFeatureExtractor_transform_spec
    (DateFeatureExtractor.mk "d" "Publish")
    [("d", [some (Cell.str "2021-03-15"), some (Cell.str "not-a-date"),
      none])]
    [("PublishYear", [some (Cell.num 2021), none, none]),
      ("PublishMonth", [some (Cell.num 3), none, none])]
    [some (Cell.str "2021-03-15"), some (Cell.str "not-a-date"), none]
    rfl (by decide) (by decide) (by with_unfolding_all rfl)
  with_unfolding_all exact h

theorem getCols_ok_map_eq {t : Table} {names : List String}
    {cols : List Column} (h : t.getCols names = .ok cols) :
    names.map (fun nm => (t.getCol nm).getD []) = cols := by
  induction names generalizing cols with
  | nil =>
    simp only [Table.getCols] at h
    cases h
    rfl
  | cons nm rest ih =>
    cases hc : t.getCol nm with
    | none => simp [Table.getCols, hc] at h
    | some c =>
      cases hr : t.getCols rest with
      | error e => simp [Table.getCols, hc, hr] at h
      | ok cs =>
        simp only [Table.getCols, hc, hr] at h
        cases h
        simp [hc, ih hr]

/-- C4: for every well-formed table in which all (non-empty) configured
area columns are present and whose list does not contain the name
`MainArea` itself, `transform` produces a `MainArea` column with one cell
per row, holding in each row the first non-missing value scanning the
configured columns in listed order (missing when all of them are missing
in that row), and none of the configured columns appear in the output. -/
theorem areaFeatureSelector_transform_spec
    {sel : AreaFeatureSelector} {t t' : Table} {n : Nat}
    (hw : t.Wf n) (hne : sel.area_columns ≠ [])
    (hma : "MainArea" ∉ sel.area_columns)
    (htr : sel.transform t = .ok t') :
    (∀ col ∈ sel.area_columns, t'.getCol col = none) ∧
    ∃ m, t'.getCol "MainArea" = some m ∧ m.length = n ∧
      ∀ r, r < n →
        m.getD r none = (sel.area_columns.map
          (fun col => ((t.getCol col).getD []).getD r none)).findSome? id ∧
        ((∀ col ∈ sel.area_columns,
            ((t.getCol col).getD []).getD r none = none) →
          m.getD r none = none) ∧
        (∀ v, m.getD r none = some v →
          ∃ k, k < sel.area_columns.length ∧
            ((t.getCol (sel.area_columns.getD k "")).getD []).getD r none =
              some v ∧
            ∀ j, j < k →
              ((t.getCol (sel.area_columns.getD j "")).getD []).getD r
                none = none) := by
  cases hg : t.getCols sel.area_columns with
  | error e => simp [AreaFeatureSelector.transform, hg] at htr
  | ok cols =>
    have hmap := getCols_ok_map_eq hg
    have hlen : cols.length = sel.area_columns.length := by
      rw [← hmap, List.length_map]
    have hcne : ¬cols.isEmpty := by
      rcases List.exists_cons_of_ne_nil hne with ⟨a, rest, hac⟩
      intro hemp
      rw [List.isEmpty_iff] at hemp
      rw [hemp] at hlen
      rw [hac] at hlen
      simp at hlen
    simp only [AreaFeatureSelector.transform, hg, hcne, if_false] at htr
    cases htr
    -- the table is non-empty, so numRows is the common row count
    have htne : t ≠ [] := by
      rcases List.exists_cons_of_ne_nil hne with ⟨a, rest, hac⟩
      have hfa := getCols_ok_forall₂ hg
      rw [hac] at hfa
      cases hfa with
      | cons hrel _ =>
        intro hnil
        rw [hnil] at hrel
        simp [Table.getCol, assocLookup] at hrel
    have hnr : t.numRows = n := numRows_eq_of_wf hw htne
    constructor
    · intro col hcol
      exact getCol_dropCols_of_mem hcol
    · refine ⟨(List.range t.numRows).map (firstNonMissing cols),
        ?_, by simp [hnr], ?_⟩
      · rw [getCol_dropCols_of_not_mem hma, getCol_setCol_self]
      · intro r hr
        have hrlt : r < (List.range t.numRows).length := by
          simpa [hnr] using hr
        have hval : ((List.range t.numRows).map
            (firstNonMissing cols)).getD r none = firstNonMissing cols r := by
          rw [getD_map_of_lt (firstNonMissing cols) _ 0 none hrlt,
            List.getD_eq_getElem _ _ hrlt, List.getElem_range]
        have hfirst : firstNonMissing cols r = (sel.area_columns.map
            (fun col => ((t.getCol col).getD []).getD r none)).findSome?
              id := by
          rw [firstNonMissing, ← hmap, List.map_map]
          rfl
        refine ⟨by rw [hval, hfirst], ?_, ?_⟩
        · intro hall
          rw [hval, hfirst, findSome?_id_eq_none_iff]
          intro x hx
          rcases List.mem_map.1 hx with ⟨col, hcol, rfl⟩
          exact hall col hcol
        · intro v hv
          rw [hval, hfirst, findSome?_id_eq_some_iff] at hv
          rcases hv with ⟨k, hk, hkv, hkj⟩
          rw [List.length_map] at hk
          refine ⟨k, hk, ?_, ?_⟩
          · rw [← hkv,
              getD_map_of_lt (fun col => ((t.getCol col).getD []).getD r
                none) _ "" none hk]
          · intro j hj
            have hjlt : j < sel.area_columns.length := lt_trans hj hk
            have := hkj j hj
            rw [getD_map_of_lt (fun col => ((t.getCol col).getD []).getD r
              none) _ "" none hjlt] at this
            exact this

/-- C4 witness: the description instantiated on a table with two area
columns where the first row takes its value from the second column, the
second row from the first column, and the third row is missing in both;
the output keeps only `k` and the new `MainArea`. -/
theorem areaFeatureSelector_transform_spec_witness :
    (∀ col ∈ ["a1", "a2"],
      Table.getCol [("k", [some (Cell.str "x"), some (Cell.str "y"),
        some (Cell.str "z")]),
        ("MainArea", [some (Cell.num 2), some (Cell.num 10), none])] col =
        none) ∧
    ∃ m, Table.getCol [("k", [some (Cell.str "x"), some (Cell.str "y"),
        some (Cell.str "z")]),
        ("MainArea", [some (Cell.num 2), some (Cell.num 10), none])]
        "MainArea" = some m ∧ m.length = 3 ∧
      ∀ r, r < 3 →
        m.getD r none = (["a1", "a2"].map
          (fun col => ((Table.getCol
            [("a1", [none, some (Cell.num 10), none]),
             ("a2", [some (Cell.num 2), some (Cell.num 3), none]),
             ("k", [some (Cell.str "x"), some (Cell.str "y"),
               some (Cell.str "z")])] col).getD []).getD r
            none)).findSome? id ∧
        ((∀ col ∈ ["a1", "a2"],
            ((Table.getCol
              [("a1", [none, some (Cell.num 10), none]),
               ("a2", [some (Cell.num 2), some (Cell.num 3), none]),
               ("k", [some (Cell.str "x"), some (Cell.str "y"),
                 some (Cell.str "z")])] col).getD []).getD r none = none) →
          m.getD r none = none) ∧
        (∀ v, m.getD r none = some v →
          ∃ k, k < (["a1", "a2"] : List String).length ∧
            ((Table.getCol
              [("a1", [none, some (Cell.num 10), none]),
               ("a2", [some (Cell.num 2), some (Cell.num 3), none]),
               ("k", [some (Cell.str "x"), some (Cell.str "y"),
                 some (Cell.str "z")])]
              (["a1", "a2"].getD k "")).getD []).getD r none = some v ∧
            ∀ j, j < k →
              ((Table.getCol
                [("a1", [none, some (Cell.num 10), none]),
                 ("a2", [some (Cell.num 2), some (Cell.num 3), none]),
                 ("k", [some (Cell.str "x"), some (Cell.str "y"),
                   some (Cell.str "z")])]
                (["a1", "a2"].getD j "")).getD []).getD r none = none) := by
  have h := @areaFeatureSelector_transform_spec
    (AreaFeatureSelector.mk ["a1", "a2"])
    [("a1", [none, some (Cell.num 10), none]),
     ("a2", [some (Cell.num 2), some (Cell.num 3), none]),
     ("k", [some (Cell.str "x"), some (Cell.str "y"),
       some (Cell.str "z")])]
    [("k", [some (Cell.str "x"), some (Cell.str "y"),
      some (Cell.str "z")]),
     ("MainArea", [some (Cell.num 2), some (Cell.num 10), none])]
    3
    (by
      intro p hp
      simp only [List.mem_cons, List.not_mem_nil, or_false] at hp
      rcases hp with rfl | rfl | rfl <;> rfl)
    (by decide) (by decide)
    (by with_unfolding_all rfl)
  with_unfolding_all exact h

/-- C3: for every freshly-constructed `OutlierClipper` fitted with ordered
quantile fractions inside `[0, 1]` and applied to a table (with distinct
column names, as DataFrames have), the fitted bounds are ordered
(`lower ≤ upper`), every non-missing numeric value of a fitted column is
clipped into `[lower, upper]`, values already inside the range are
returned unchanged, missing cells stay missing, the row count of every
column is preserved, and the transform is idempotent:
`transform (transform t) = transform t`. -/
theorem outlierClipper_transform_spec
    {cols : List String} {lq uq : ℚ} {tFit t t' : Table}
    {oc' : OutlierClipper}
    (hnd : cols.Nodup)
    (hfit : (OutlierClipper.mk cols lq uq []).fit tFit = .ok oc')
    (hl0 : 0 ≤ lq) (hlu : lq ≤ uq) (hu1 : uq ≤ 1)
    (hk : (Table.colNames t).Nodup)
    (htr : oc'.transform t = .ok t') :
    (∀ n, t.Wf n → t'.Wf n) ∧
    oc'.transform t' = .ok t' ∧
    (∀ col lo hi, (col, (some lo, some hi)) ∈ oc'.bounds_ →
      lo ≤ hi ∧
      ∃ cs cs', t.getCol col = some cs ∧ t'.getCol col = some cs' ∧
        cs'.length = cs.length ∧
        (∀ i, i < cs.length → cs.getD i none = none →
          cs'.getD i none = none) ∧
        (∀ i x, i < cs.length → cs'.getD i none = some (Cell.num x) →
          lo ≤ x ∧ x ≤ hi) ∧
        (∀ i x, i < cs.length → cs.getD i none = some (Cell.num x) →
          lo ≤ x → x ≤ hi → cs'.getD i none = some (Cell.num x))) := by
  cases hm : clipFitCols lq uq tFit cols with
  | error e => simp [OutlierClipper.fit, hm] at hfit
  | ok m =>
    simp only [OutlierClipper.fit, hm] at hfit
    cases hfit
    simp only [OutlierClipper.transform, List.append_nil] at htr ⊢
    have hkeys : (m.map Prod.fst).Nodup := by
      rw [clipFitCols_ok_keys hm]
      exact hnd
    refine ⟨fun n hw => clipCols_ok_wf hw htr, clipCols_idem hkeys hk htr,
      ?_⟩
    intro col lo hi hmem
    have hlohi : lo ≤ hi := by
      rcases clipFitCols_ok_mem hm hmem with ⟨cF, _, hql, hqu⟩
      exact quantile_le_quantile hl0 hlu hu1 hql.symm hqu.symm
    rcases clipCols_ok_getCol_mem hkeys htr hmem with ⟨cs, hcs, hout⟩
    refine ⟨hlohi, cs,
      cs.map (Option.map (clipCell (some lo) (some hi))), hcs, hout,
      by simp, ?_, ?_, ?_⟩
    · intro i hi0 hnone
      rw [getD_map_of_lt _ cs none none hi0, hnone]
      rfl
    · intro i x hi0 hx
      rw [getD_map_of_lt _ cs none none hi0] at hx
      cases hv : cs.getD i none with
      | none => rw [hv] at hx; simp at hx
      | some v =>
        rw [hv] at hx
        cases v with
        | num q =>
          have hxq : clipQ (some lo) (some hi) q = x := by
            have h2 := hx
            simp [clipCell] at h2
            exact h2
          rw [← hxq]
          exact clipQ_mem hlohi q
        | str s => simp [clipCell] at hx
        | boolean bv => simp [clipCell] at hx
    · intro i x hi0 hx h1 h2
      rw [getD_map_of_lt _ cs none none hi0, hx]
      simp [clipCell]
      exact clipQ_of_mem h1 h2

/-- C3 witness: a clipper fitted on `x = [1, 2, 3, 4]` with quantile
fractions `1/4` and `3/4` (bounds `7/4` and `13/4`), applied to the column
`[0, 2, missing]`: `0` is raised to `7/4`, `2` is unchanged, missing stays
missing, and re-applying the transform changes nothing. -/
theorem outlierClipper_transform_spec_witness :
    (∀ n, Table.Wf [("x", [some (Cell.num 0), some (Cell.num 2), none])]
        n →
      Table.Wf [("x", [some (Cell.num (7/4)), some (Cell.num 2), none])]
        n) ∧
    (OutlierClipper.mk ["x"] (1/4) (3/4)
        [("x", (some (7/4), some (13/4)))]).transform
      [("x", [some (Cell.num (7/4)), some (Cell.num 2), none])] =
      .ok [("x", [some (Cell.num (7/4)), some (Cell.num 2), none])] ∧
    (∀ col lo hi,
      (col, (some lo, some hi)) ∈
        (OutlierClipper.mk ["x"] (1/4) (3/4)
          [("x", (some (7/4), some (13/4)))]).bounds_ →
      lo ≤ hi ∧
      ∃ cs cs',
        Table.getCol [("x", [some (Cell.num 0), some (Cell.num 2), none])]
          col = some cs ∧
        Table.getCol [("x", [some (Cell.num (7/4)), some (Cell.num 2),
          none])] col = some cs' ∧
        cs'.length = cs.length ∧
        (∀ i, i < cs.length → cs.getD i none = none →
          cs'.getD i none = none) ∧
        (∀ i x, i < cs.length → cs'.getD i none = some (Cell.num x) →
          lo ≤ x ∧ x ≤ hi) ∧
        (∀ i x, i < cs.length → cs.getD i none = some (Cell.num x) →
          lo ≤ x → x ≤ hi → cs'.getD i none = some (Cell.num x))) := by
  have h := @outlierClipper_transform_spec
    ["x"] (1/4) (3/4)
    [("x", [some (Cell.num 1), some (Cell.num 2),
      some (Cell.num 3), some (Cell.num 4)])]
    [("x", [some (Cell.num 0), some (Cell.num 2), none])]
    [("x", [some (Cell.num (7/4)), some (Cell.num 2), none])]
    (OutlierClipper.mk ["x"] (1/4) (3/4)
      [("x", (some (7/4), some (13/4)))])
    (by decide) (by with_unfolding_all rfl) (by norm_num) (by norm_num)
    (by norm_num) (by decide) (by with_unfolding_all rfl)
  with_unfolding_all exact h

/-- C9: every unit's `transform` starts from `X.copy()` and builds a new
table — in this pure embedding each transform is a function returning a
fresh value, so the caller's table is never mutated by construction — and
whenever a transform succeeds on a table whose columns all have `n` rows,
every column of the output again has exactly `n` rows (cells are rewritten
in place by positional `map`s, so row order is preserved; the
`ColumnDropper` additionally passes every kept column through verbatim). -/
theorem transforms_preserve_rows {n : Nat} :
    (∀ (sel : AreaFeatureSelector) (t t' : Table), t.Wf n →
      sel.transform t = .ok t' → t'.Wf n) ∧
    (∀ (g : RareCategoryGrouper) (t t' : Table), t.Wf n →
      g.transform t = .ok t' → t'.Wf n) ∧
    (∀ (b : BooleanNormalizer) (t t' : Table), t.Wf n →
      b.transform t = .ok t' → t'.Wf n) ∧
    (∀ (e : DateFeatureExtractor) (t t' : Table), t.Wf n →
      e.transform t = .ok t' → t'.Wf n) ∧
    (∀ (oc : OutlierClipper) (t t' : Table), t.Wf n →
      oc.transform t = .ok t' → t'.Wf n) ∧
    (∀ (d : ColumnDropper) (t : Table), t.Wf n →
      (d.transform t).Wf n ∧
      ∀ name, name ∉ d.columns →
        (d.transform t).getCol name = t.getCol name) := by
  refine ⟨?_, ?_, ?_, ?_, ?_, ?_⟩
  · intro sel t t' hw htr
    cases hg : t.getCols sel.area_columns with
    | error e => simp [AreaFeatureSelector.transform, hg] at htr
    | ok cols =>
      by_cases hemp : cols.isEmpty
      · simp [AreaFeatureSelector.transform, hg, hemp] at htr
      · simp only [AreaFeatureSelector.transform, hg, hemp, if_false] at htr
        cases htr
        have htne : t ≠ [] := by
          have hmap := getCols_ok_map_eq hg
          rcases cols with _ | ⟨c0, crest⟩
          · simp at hemp
          · rcases hn : sel.area_columns with _ | ⟨a0, arest⟩
            · rw [hn] at hmap
              simp at hmap
            · have hfa := getCols_ok_forall₂ hg
              rw [hn] at hfa
              cases hfa with
              | cons hrel _ =>
                intro hnil
                rw [hnil] at hrel
                simp [Table.getCol, assocLookup] at hrel
        exact wf_dropCols _ (wf_setCol _ hw
          (by simp [numRows_eq_of_wf hw htne]))
  · intro g t t' hw htr
    exact groupCols_ok_wf hw htr
  · intro b t t' hw htr
    exact boolNormCols_ok_wf hw htr
  · intro e t t' hw htr
    cases hc : t.getCol e.column with
    | none => simp [DateFeatureExtractor.transform, hc] at htr
    | some cs =>
      simp only [DateFeatureExtractor.transform, hc] at htr
      cases htr
      have hlen : cs.length = n := by simpa using hw _ (getCol_mem hc)
      exact wf_dropCols _ (wf_setCol _ (wf_setCol _ hw (by simp [hlen]))
        (by simp [hlen]))
  · intro oc t t' hw htr
    exact clipCols_ok_wf hw htr
  · intro d t hw
    exact ⟨wf_dropCols _ hw, fun name hname =>
      getCol_dropCols_of_not_mem hname⟩

/-- C9 witness: the six row-count facts instantiated on one-row tables —
each at a concrete transform output — plus the dropper's verbatim
pass-through of a kept column. -/
theorem transforms_preserve_rows_witness :
    Table.Wf [("MainArea", [some (Cell.num 3)])] 1 ∧
    Table.Wf [("x", [some (Cell.num 3)])] 1 ∧
    Table.Wf [("x", [none])] 1 ∧
    Table.Wf [("PYear", [none]), ("PMonth", [none])] 1 ∧
    Table.Wf [("x", [some (Cell.num 1)])] 1 ∧
    (Table.Wf (Table.dropCols [("x", [some (Cell.num 3)])] ["z"]) 1 ∧
      ∀ name, name ∉ (["z"] : List String) →
        Table.getCol (Table.dropCols [("x", [some (Cell.num 3)])] ["z"])
          name = Table.getCol [("x", [some (Cell.num 3)])] name) := by
  have hwf : Table.Wf [("x", [some (Cell.num 3)])] 1 := by
    intro p hp
    simp only [List.mem_singleton] at hp
    rw [hp]
    rfl
  refine ⟨?_, ?_, ?_, ?_, ?_, ?_⟩
  · exact transforms_preserve_rows.1 (AreaFeatureSelector.mk ["x"])
      [("x", [some (Cell.num 3)])] [("MainArea", [some (Cell.num 3)])]
      hwf (by with_unfolding_all rfl)
  · exact transforms_preserve_rows.2.1
      (RareCategoryGrouper.mk ["x"] 1 [("x", [Cell.num 3])])
      [("x", [some (Cell.num 3)])] [("x", [some (Cell.num 3)])]
      hwf (by with_unfolding_all rfl)
  · exact transforms_preserve_rows.2.2.1 (BooleanNormalizer.mk ["x"])
      [("x", [some (Cell.num 3)])] [("x", [none])]
      hwf (by with_unfolding_all rfl)
  · exact transforms_preserve_rows.2.2.2.1
      (DateFeatureExtractor.mk "x" "P")
      [("x", [some (Cell.num 3)])] [("PYear", [none]), ("PMonth", [none])]
      hwf (by with_unfolding_all rfl)
  · exact transforms_preserve_rows.2.2.2.2.1
      (OutlierClipper.mk [] 0 1 [("x", (some 0, some 1))])
      [("x", [some (Cell.num 3)])] [("x", [some (Cell.num 1)])]
      hwf (by with_unfolding_all rfl)
  · exact transforms_preserve_rows.2.2.2.2.2 (ColumnDropper.mk ["z"])
      [("x", [some (Cell.num 3)])] hwf
